import Mathlib

/-!
Shallow embedding of the location-history filtering/aggregation engine
(`src/lib.rs`).  Timestamps are modelled as integers (seconds, the value of
chrono's `DateTime::timestamp()`); latitude/longitude and all floating-point
arithmetic are modelled over `ℚ` (exact arithmetic; the claims under study
stay far from rounding boundaries).  The haversine distance comes from the
external `geo` crate, so every operation that consumes it takes the distance
function as an explicit parameter.
-/

namespace LocationHistory

/-- One (label, confidence) pair, `Activity` in `lib.rs` (`type` / `confidence`). -/
structure Activity where
  activity_type : String
  confidence : Int
  deriving Repr, DecidableEq

/-- One activity observation, `Activities` in `lib.rs`: a timestamp plus the
list of (label, confidence) pairs recorded near that instant. -/
structure Activities where
  timestamp : Int
  activities : List Activity
  deriving Repr, DecidableEq

/-- A location record, `Location` in `lib.rs`. -/
structure Location where
  timestamp : Int
  latitude : Rat
  longitude : Rat
  accuracy : Option Int
  altitude : Option Int
  activities : Option (List Activities)
  deriving Repr, DecidableEq

instance : Inhabited Location := ⟨⟨0, 0, 0, none, none, none⟩⟩

/-- The closed activity enum `ActivityType` in `lib.rs`. -/
inductive ActivityType where
  | IN_VEHICLE
  | EXITING_VEHICLE
  | ON_BICYCLE
  | ON_FOOT
  | RUNNING
  | STILL
  | TILTING
  | UNKNOWN
  | WALKING
  deriving Repr, DecidableEq

/-- `impl Into<ActivityType> for Activity`: a raw label string decodes to the
closed enum, every unrecognized string mapping to `UNKNOWN`. -/
def activity_type_of_string (s : String) : ActivityType :=
  match s with
  | "IN_VEHICLE" => ActivityType.IN_VEHICLE
  | "EXITING_VEHICLE" => ActivityType.EXITING_VEHICLE
  | "ON_BICYCLE" => ActivityType.ON_BICYCLE
  | "ON_FOOT" => ActivityType.ON_FOOT
  | "RUNNING" => ActivityType.RUNNING
  | "STILL" => ActivityType.STILL
  | "TILTING" => ActivityType.TILTING
  | "UNKNOWN" => ActivityType.UNKNOWN
  | "WALKING" => ActivityType.WALKING
  | _ => ActivityType.UNKNOWN

/-- `impl Into<String> for &ActivityType` in `lib.rs`. -/
def string_of_activity_type : ActivityType → String
  | ActivityType.IN_VEHICLE => "IN_VEHICLE"
  | ActivityType.EXITING_VEHICLE => "EXITING_VEHICLE"
  | ActivityType.ON_BICYCLE => "ON_BICYCLE"
  | ActivityType.ON_FOOT => "ON_FOOT"
  | ActivityType.RUNNING => "RUNNING"
  | ActivityType.STILL => "STILL"
  | ActivityType.TILTING => "TILTING"
  | ActivityType.UNKNOWN => "UNKNOWN"
  | ActivityType.WALKING => "WALKING"

/-- The record ordering used by `sort_chronological` (compare timestamps). -/
def chronLE (a b : Location) : Prop := a.timestamp ≤ b.timestamp

instance : DecidableRel chronLE := fun a b => Int.decLe a.timestamp b.timestamp

instance : IsTotal Location chronLE := ⟨fun a b => Int.le_total a.timestamp b.timestamp⟩

instance : IsTrans Location chronLE := ⟨fun _ _ _ h1 h2 => le_trans h1 h2⟩

/-- `sort_chronological` in `lib.rs`: stable ascending sort by timestamp. -/
def sort_chronological (xs : List Location) : List Location :=
  List.insertionSort chronLE xs

/-- `Location::speed_kmh` in `lib.rs`: speed in km/h from `other` to `self`,
`none` when the elapsed time is outside the open interval (0 s, 600 s).
`dist` stands for the external haversine distance of the `geo` crate. -/
def speed_kmh (dist : Location → Location → Rat) (self other : Location) : Option Rat :=
  let d := dist self other
  let time := self.timestamp - other.timestamp
  if 0 < time ∧ time < 600 then some (d / (time : Rat) * (18 / 5)) else none

/-- The loop body of `filter_outliers`: walk the arrival-ordered candidates,
keeping `lastAcc` = last pushed record (`tmp[tmp.len() - 1]`) and `accRev` =
the rest of `tmp` in reverse. -/
def outlier_pass (dist : Location → Location → Rat) :
    List Location → Location → List Location → List Location
  | [], lastAcc, accRev => (lastAcc :: accRev).reverse
  | loc :: rest, lastAcc, accRev =>
    match speed_kmh dist loc lastAcc with
    | some s =>
      if s < 300 then outlier_pass dist rest loc (lastAcc :: accRev)
      else outlier_pass dist rest lastAcc accRev
    | none => outlier_pass dist rest loc (lastAcc :: accRev)

/-- `filter_outliers` in `lib.rs`: seed `tmp` with `self[0]`, run the pass over
the whole original sequence (the seed element included, exactly as the Rust
`for location in self.into_iter()` does), then sort chronologically.  On an
empty input the Rust code indexes `self[0]` and panics; the panic is modelled
by `none`. -/
def filter_outliers (dist : Location → Location → Rat) :
    List Location → Option (List Location)
  | [] => none
  | first :: rest => some (sort_chronological (outlier_pass dist (first :: rest) first []))

/-- `average_time` in `lib.rs`: `for i in 1..len { time += ts[i] - ts[i-1] }`
followed by `time / (len as i64)` (Rust `i64` division truncates toward zero,
i.e. `Int.tdiv`). -/
def average_time (self : List Location) : Int :=
  Int.tdiv
    ((List.range' 1 (self.length - 1)).foldl
      (fun t i => t + ((self.getD i default).timestamp - (self.getD (i - 1) default).timestamp))
      0)
    self.length

/-- Timestamp of the record at index `i` (used by the binary search). -/
def tsAt (xs : List Location) (i : Nat) : Int := (xs.getD i default).timestamp

/-- Rust's `slice::binary_search_by` specialised to the timestamp comparator of
`find_closest`: `inl m` models `Ok(m)` (exact match), `inr i` models `Err(i)`
(insertion index). -/
def bsearch (xs : List Location) (t : Int) (left right : Nat) : Sum Nat Nat :=
  if h : left < right then
    if tsAt xs (left + (right - left) / 2) < t then
      bsearch xs t (left + (right - left) / 2 + 1) right
    else if t < tsAt xs (left + (right - left) / 2) then
      bsearch xs t left (left + (right - left) / 2)
    else Sum.inl (left + (right - left) / 2)
  else Sum.inr left
termination_by right - left
decreasing_by all_goals omega

/-- `find_closest` in `lib.rs`: binary search for the exact timestamp; on a
miss, return the record at the insertion index only when it is strictly
interior (`0 < i < len`). -/
def find_closest (xs : List Location) (t : Int) : Option Location :=
  let result := bsearch xs t 0 xs.length
  let index : Option Nat :=
    match result with
    | Sum.inl x => some x
    | Sum.inr x => if 0 < x ∧ x < xs.length then some x else none
  match index with
  | some x => if x < xs.length then some (xs.getD x default) else none
  | none => none

/-- Rust's `Iterator::max_by_key(|x| x.confidence)`: on ties the *last*
maximal element wins (fold replacing the accumulator whenever the next
element's key is `≥`). -/
def max_by_confidence : List Activity → Option Activity
  | [] => none
  | a :: rest =>
    some (rest.foldl (fun acc x => if acc.confidence ≤ x.confidence then x else acc) a)

/-- Inner loop of `filter_by_activity` over one record's observation list:
push-and-break on the first observation whose highest-confidence label fits
the pattern.  `gmatch` stands for the external `glob_match` crate. -/
def observation_match (gmatch : String → String → Bool) (pattern : String) :
    List Activities → Bool
  | [] => false
  | obs :: rest =>
    match max_by_confidence obs.activities with
    | some a =>
      if gmatch pattern a.activity_type then true
      else observation_match gmatch pattern rest
    | none => observation_match gmatch pattern rest

/-- `filter_by_activity` in `lib.rs`. -/
def filter_by_activity (gmatch : String → String → Bool) (pattern : String)
    (self : List Location) : List Location :=
  sort_chronological (self.filter (fun loc =>
    match loc.activities with
    | some obs => observation_match gmatch pattern obs
    | none => false))

/-- HashSet insertion as seen through iteration order: append when new. -/
def insert_unique (s : List String) (x : String) : List String :=
  if x ∈ s then s else s ++ [x]

/-- `list_activities` in `lib.rs`: the distinct raw label strings appearing in
any nested observation. -/
def list_activities (self : List Location) : List String :=
  self.foldl (fun s loc =>
    match loc.activities with
    | some obsList =>
      obsList.foldl (fun s obs =>
        obs.activities.foldl (fun s a => insert_unique s a.activity_type) s) s
    | none => s) []

/-- `filter_by_distance` in `lib.rs`: keep records whose haversine distance to
`point` is strictly below `distance`.  `hav` stands for the external haversine
of the `geo` crate, fed with the record's `(latitude, longitude)` coordinate
exactly as `Into<Coord<f64>> for &Location` builds it. -/
def filter_by_distance (hav : Rat × Rat → Rat × Rat → Rat) (self : List Location)
    (point : Rat × Rat) (distance : Rat) : List Location :=
  self.filter (fun loc => hav (loc.latitude, loc.longitude) point < distance)

/-- Model of `HashMap<ActivityType, i32>` as an association list with unique
keys; `alist_add` is `*map.entry(k).or_insert(0) += c` (update the entry when
present, insert otherwise). -/
def alist_add : List (ActivityType × Int) → ActivityType → Int → List (ActivityType × Int)
  | [], k, c => [(k, c)]
  | p :: rest, k, c =>
    if p.1 = k then (p.1, p.2 + c) :: rest else p :: alist_add rest k c

/-- Lookup in the association-list map. -/
def alook : List (ActivityType × Int) → ActivityType → Option Int
  | [], _ => none
  | p :: rest, k => if p.1 = k then some p.2 else alook rest k

/-- Fold a list of (type, confidence) pairs into a map. -/
def add_all (m : List (ActivityType × Int)) (ps : List (ActivityType × Int)) :
    List (ActivityType × Int) :=
  ps.foldl (fun m p => alist_add m p.1 p.2) m

/-- `impl Into<HashMap<ActivityType, i32>> for &Activities`: group one
observation's pairs by decoded enum label, summing confidences. -/
def activities_to_map (obs : Activities) : List (ActivityType × Int) :=
  obs.activities.foldl
    (fun m act => alist_add m (activity_type_of_string act.activity_type) act.confidence) []

/-- The `all_activities` map built inside `Location::merged_activities`:
every observation's per-observation map merged in, summing per label. -/
def merged_map (rec : Location) : List (ActivityType × Int) :=
  (rec.activities.getD []).foldl (fun acc obs => add_all acc (activities_to_map obs)) []

/-- The ordering used for the confidence-descending sorts in `lib.rs`
(`sort_by(|a, b| b.confidence.cmp(&a.confidence))`). -/
def confGE (a b : Activity) : Prop := b.confidence ≤ a.confidence

instance : DecidableRel confGE := fun a b => Int.decLe b.confidence a.confidence

instance : IsTotal Activity confGE := ⟨fun a b => Int.le_total b.confidence a.confidence⟩

instance : IsTrans Activity confGE := ⟨fun _ _ _ h1 h2 => le_trans h2 h1⟩

/-- `Location::merged_activities` in `lib.rs`: merge every observation into
one per-label-summed map, render it back to `Activity` entries and sort by
confidence descending. -/
def merged_activities (rec : Location) : Activities :=
  { timestamp := rec.timestamp
    activities :=
      List.insertionSort confGE
        ((merged_map rec).map (fun p =>
          { activity_type := string_of_activity_type p.1, confidence := p.2 })) }

/-- All activity pairs of a record, flattened across its observations. -/
def all_acts (rec : Location) : List Activity :=
  (rec.activities.getD []).flatMap (fun obs => obs.activities)

/-- Whether some activity of the record decodes to the enum label `T`. -/
def occurs_type (rec : Location) (T : ActivityType) : Prop :=
  ∃ a ∈ all_acts rec, activity_type_of_string a.activity_type = T

instance (rec : Location) (T : ActivityType) : Decidable (occurs_type rec T) := by
  unfold occurs_type; infer_instance

/-- Total confidence the record assigns to the enum label `T`, summed across
all observations. -/
def total_confidence (rec : Location) (T : ActivityType) : Int :=
  (((all_acts rec).filter (fun a => activity_type_of_string a.activity_type = T)).map
    (fun a => a.confidence)).sum

/-! Derived notions and concrete fixtures used to state the claims. -/

/-- The chronological invariant of a Collection: non-decreasing timestamps. -/
def Chron (xs : List Location) : Prop := List.Pairwise chronLE xs

/-- Fixture records at t = 0, 10, 20 (the `find_closest` example of the spec). -/
def exR0 : Location := ⟨0, 0, 0, none, none, none⟩

def exR10 : Location := ⟨10, 0, 0, none, none, none⟩

def exR20 : Location := ⟨20, 0, 0, none, none, none⟩

def ex3 : List Location := [exR0, exR10, exR20]

/-- A concrete stand-in for the haversine distance: records are placed on a
line and the distance is the coordinate difference (in metres), carried in the
`latitude` field.  Every call the filters make under the fixtures below uses a
non-negative difference, so this realises exactly the distances the claims
describe. -/
def dEx (l1 l2 : Location) : Rat := l1.latitude - l2.latitude

/-- Record A of the outlier example: t = 0 s, position 0 m. -/
def exA : Location := ⟨0, 0, 0, none, none, none⟩

/-- Record B: t = 60 s, position 25000/3 m, hence 500 km/h implied from A. -/
def exB : Location := ⟨60, 25000 / 3, 0, none, none, none⟩

/-- Record C: t = 120 s, position 7500 m, hence 50 km/h implied from B (which
is 2500/3 m away) and 225 km/h implied from A. -/
def exC : Location := ⟨120, 7500, 0, none, none, none⟩

/-- Record at t = 600 s placed 100000 m from `exA`: the implied speed across
the 600 s gap would be 600 km/h. -/
def exQ600 : Location := ⟨600, 100000, 0, none, none, none⟩

/-- Record 601 s after `exA`. -/
def exQ601 : Location := ⟨601, 0, 0, none, none, none⟩

/-- The per-candidate keep rule exactly as the claim words it: elapsed ≤ 0 or
elapsed > 600 keeps unconditionally, otherwise the candidate is kept iff
`dist / elapsed × 3.6 < 300`. -/
def claimed_keep (dist : Location → Location → Rat) (cand last : Location) : Prop :=
  if cand.timestamp - last.timestamp ≤ 0 ∨ 600 < cand.timestamp - last.timestamp then True
  else dist cand last / ((cand.timestamp - last.timestamp : Int) : Rat) * (18 / 5) < 300

/-- The keep rule the code actually implements, read off `filter_outliers`. -/
def code_keep (dist : Location → Location → Rat) (cand last : Location) : Prop :=
  match speed_kmh dist cand last with
  | some s => s < 300
  | none => True

/-- The adjacent signed deltas (later minus earlier) of a record sequence. -/
def adjacent_deltas (xs : List Location) : List Int :=
  (xs.zip (xs.drop 1)).map (fun p => p.2.timestamp - p.1.timestamp)

/-- The average the claim describes: sum of adjacent deltas divided by the
number of adjacent pairs (length − 1). -/
def claimed_average (xs : List Location) : Int :=
  Int.tdiv (adjacent_deltas xs).sum (xs.length - 1)

/-- Spec-side selection with the tie-break the code performs: the *last*
element of the observation list attaining the maximal confidence (the first
maximal element of the reversed list). -/
def spec_select (acts : List Activity) : Option Activity :=
  acts.reverse.find? (fun e => acts.all (fun b => b.confidence ≤ e.confidence))

/-- Selection as the claim words it: ties broken by the *first*-encountered
label in stored order. -/
def spec_select_first (acts : List Activity) : Option Activity :=
  acts.find? (fun e => acts.all (fun b => b.confidence ≤ e.confidence))

/-- Spec-side retention rule for `filter_by_activity` (any observation whose
selected label fits the pattern), parametric in the selection rule. -/
def spec_keep_with (sel : List Activity → Option Activity)
    (gmatch : String → String → Bool) (pattern : String) (loc : Location) : Bool :=
  (loc.activities.getD []).any (fun obs =>
    match sel obs.activities with
    | some e => gmatch pattern e.activity_type
    | none => false)

/-- Literal string matching: what `glob_match` does on a pattern with no
wildcard, no alternation and no character class, such as `"ON_FOOT"`. -/
def eqm (pattern s : String) : Bool := pattern == s

/-- A record with a single observation holding a confidence tie between
ON_FOOT (stored first) and STILL (stored second). -/
def recTie : Location :=
  ⟨0, 0, 0, none, none, some [⟨0, [⟨"ON_FOOT", 50⟩, ⟨"STILL", 50⟩]⟩]⟩

/-- A record with two observations each reporting STILL at confidence 80. -/
def recStill : Location :=
  ⟨0, 0, 0, none, none, some [⟨0, [⟨"STILL", 80⟩]⟩, ⟨0, [⟨"STILL", 80⟩]⟩]⟩

/-- A record whose observations carry only unrecognized raw labels. -/
def recFooBar : Location :=
  ⟨0, 0, 0, none, none, some [⟨0, [⟨"foo", 10⟩]⟩, ⟨0, [⟨"bar", 20⟩]⟩]⟩

/-- The raw label strings the enum decoding recognizes. -/
def recognized_labels : List String :=
  ["IN_VEHICLE", "EXITING_VEHICLE", "ON_BICYCLE", "ON_FOOT", "RUNNING",
   "STILL", "TILTING", "UNKNOWN", "WALKING"]

/-- The key column of an association-list map. -/
def akeys (m : List (ActivityType × Int)) : List ActivityType := m.map (fun p => p.1)

/-- Sum of the values a pair list carries for the key `T`. -/
def keySum (ps : List (ActivityType × Int)) (T : ActivityType) : Int :=
  ((ps.filter (fun p => decide (p.1 = T))).map (fun p => p.2)).sum

/-- The (type, confidence) pairs of one observation after enum decoding. -/
def pairsOf (obs : Activities) : List (ActivityType × Int) :=
  obs.activities.map (fun a => (activity_type_of_string a.activity_type, a.confidence))

/-- All decoded pairs of a record, across its observations. -/
def allPairs (rec : Location) : List (ActivityType × Int) :=
  (rec.activities.getD []).flatMap pairsOf

/-- Every raw label string of a collection, in order of appearance, with
multiplicity. -/
def all_raw (c : List Location) : List String :=
  c.flatMap (fun loc =>
    ((loc.activities.getD []).flatMap (fun obs => obs.activities)).map
      (fun a => a.activity_type))

/-! Lemmas about the binary search of `find_closest`. -/

lemma tsAt_eq_getElem (xs : List Location) (i : Nat) (h : i < xs.length) :
    tsAt xs i = xs[i].timestamp := by
  simp [tsAt, List.getD_eq_getElem?_getD, List.getElem?_eq_getElem h]

lemma tsAt_mono {xs : List Location} (hs : Chron xs) {i j : Nat}
    (hij : i ≤ j) (hj : j < xs.length) : tsAt xs i ≤ tsAt xs j := by
  rcases eq_or_lt_of_le hij with rfl | hlt
  · exact le_refl _
  · have hi : i < xs.length := lt_trans hlt hj
    have := List.pairwise_iff_getElem.mp hs i j hi hj hlt
    rw [tsAt_eq_getElem xs i hi, tsAt_eq_getElem xs j hj]
    exact this

/-- Loop invariant of the embedded `binary_search_by`: an exact hit names an
index holding `t`; a miss returns the unique boundary between the strictly
smaller and the strictly larger region. -/
lemma bsearch_spec (xs : List Location) (t : Int) (hs : Chron xs) :
    ∀ left right, left ≤ right → right ≤ xs.length →
    (∀ k, k < left → tsAt xs k < t) →
    (∀ k, right ≤ k → k < xs.length → t < tsAt xs k) →
    (match bsearch xs t left right with
     | Sum.inl m => m < xs.length ∧ tsAt xs m = t
     | Sum.inr i =>
         i ≤ xs.length ∧ (∀ k, k < i → tsAt xs k < t) ∧
         (∀ k, i ≤ k → k < xs.length → t < tsAt xs k)) := by
  intro left right
  induction left, right using bsearch.induct xs t with
  | case1 left right hlr hless ih =>
    intro hle hrlen hlow hhigh
    rw [bsearch, dif_pos hlr, if_pos hless]
    apply ih
    · omega
    · exact hrlen
    · intro k hk
      by_cases hkl : k < left
      · exact hlow k hkl
      · exact lt_of_le_of_lt (tsAt_mono hs (by omega) (by omega)) hless
    · exact hhigh
  | case2 left right hlr hnless hgt ih =>
    intro hle hrlen hlow hhigh
    rw [bsearch, dif_pos hlr, if_neg hnless, if_pos hgt]
    apply ih
    · omega
    · omega
    · exact hlow
    · intro k hk hklen
      exact lt_of_lt_of_le hgt (tsAt_mono hs hk hklen)
  | case3 left right hlr hnless hngt =>
    intro hle hrlen hlow hhigh
    rw [bsearch, dif_pos hlr, if_neg hnless, if_neg hngt]
    refine ⟨by omega, by omega⟩
  | case4 left right hnlr =>
    intro hle hrlen hlow hhigh
    rw [bsearch, dif_neg hnlr]
    exact ⟨by omega, fun k hk => hlow k hk,
      fun k hk hklen => hhigh k (by omega) hklen⟩

lemma countP_eq_of_split (p : Location → Bool) :
    ∀ (xs : List Location) (i : Nat), i ≤ xs.length →
    (∀ k, k < i → p (xs.getD k default) = true) →
    (∀ k, i ≤ k → k < xs.length → p (xs.getD k default) = false) →
    xs.countP p = i := by
  intro xs
  induction xs with
  | nil =>
    intro i hi _ _
    have h0 : i = 0 := by simpa using hi
    subst h0
    simp
  | cons x rest ih =>
    intro i hi h1 h2
    cases i with
    | zero =>
      have hx : p x = false := by simpa using h2 0 (le_refl 0) (by simp)
      have h0 : rest.countP p = 0 :=
        ih 0 (Nat.zero_le _) (fun k hk => absurd hk (Nat.not_lt_zero k))
          (fun k _ hk => by simpa using h2 (k + 1) (by omega) (by simpa using hk))
      rw [List.countP_cons, hx, h0]
      simp
    | succ j =>
      have hx : p x = true := by simpa using h1 0 (by omega)
      have hj : rest.countP p = j :=
        ih j (by simpa using hi)
          (fun k hk => by simpa using h1 (k + 1) (by omega))
          (fun k hk hklen => by simpa using h2 (k + 1) (by omega) (by simpa using hklen))
      rw [List.countP_cons, hx, hj]
      simp

lemma no_match_of_indexwise {xs : List Location} {t : Int}
    (h : ∀ k, k < xs.length → tsAt xs k ≠ t) : ∀ r ∈ xs, r.timestamp ≠ t := by
  intro r hr
  obtain ⟨k, hk, rfl⟩ := List.mem_iff_getElem.mp hr
  rw [← tsAt_eq_getElem xs k hk]
  exact h k hk

lemma indexwise_of_no_match {xs : List Location} {t : Int}
    (h : ∀ r ∈ xs, r.timestamp ≠ t) : ∀ k, k < xs.length → tsAt xs k ≠ t := by
  intro k hk
  rw [tsAt_eq_getElem xs k hk]
  exact h _ (List.getElem_mem hk)

/-- On a sorted collection, an exact timestamp hit is always found. -/
lemma find_closest_exact (xs : List Location) (t : Int) (hs : Chron xs)
    (hex : ∃ r ∈ xs, r.timestamp = t) :
    ∃ r, find_closest xs t = some r ∧ r ∈ xs ∧ r.timestamp = t := by
  have hspec := bsearch_spec xs t hs 0 xs.length (Nat.zero_le _) (le_refl _)
    (fun k hk => absurd hk (Nat.not_lt_zero k)) (fun k hk hklen => absurd hklen (by omega))
  obtain ⟨r, hr, hrt⟩ := hex
  obtain ⟨n, hn, rfl⟩ := List.mem_iff_getElem.mp hr
  match hbs : bsearch xs t 0 xs.length with
  | Sum.inl m =>
    rw [hbs] at hspec
    obtain ⟨hm, hmt⟩ := hspec
    refine ⟨xs[m], ?_, List.getElem_mem hm, by rw [← tsAt_eq_getElem xs m hm]; exact hmt⟩
    simp only [find_closest, hbs]
    rw [if_pos hm]
    simp [List.getD_eq_getElem?_getD, List.getElem?_eq_getElem hm]
  | Sum.inr i =>
    rw [hbs] at hspec
    obtain ⟨hilen, hlow, hhigh⟩ := hspec
    exfalso
    have hnt : tsAt xs n = t := by rw [tsAt_eq_getElem xs n hn]; exact hrt
    by_cases hni : n < i
    · exact absurd hnt (by have := hlow n hni; omega)
    · exact absurd hnt (by have := hhigh n (by omega) hn; omega)

/-- On a sorted collection with no exact hit, `find_closest` returns the
record at the insertion index (the number of strictly smaller timestamps)
exactly when that index is strictly interior. -/
lemma find_closest_miss (xs : List Location) (t : Int) (hs : Chron xs)
    (hmiss : ∀ r ∈ xs, r.timestamp ≠ t) :
    find_closest xs t =
      if 0 < xs.countP (fun r => decide (r.timestamp < t)) ∧
         xs.countP (fun r => decide (r.timestamp < t)) < xs.length
      then some (xs.getD (xs.countP (fun r => decide (r.timestamp < t))) default)
      else none := by
  have hspec := bsearch_spec xs t hs 0 xs.length (Nat.zero_le _) (le_refl _)
    (fun k hk => absurd hk (Nat.not_lt_zero k)) (fun k hk hklen => absurd hklen (by omega))
  have hidx := indexwise_of_no_match hmiss
  match hbs : bsearch xs t 0 xs.length with
  | Sum.inl m =>
    rw [hbs] at hspec
    exact absurd hspec.2 (hidx m hspec.1)
  | Sum.inr i =>
    rw [hbs] at hspec
    obtain ⟨hilen, hlow, hhigh⟩ := hspec
    have hcnt : xs.countP (fun r => decide (r.timestamp < t)) = i := by
      apply countP_eq_of_split _ xs i hilen
      · intro k hk
        have hklen : k < xs.length := by omega
        have := hlow k hk
        rw [tsAt_eq_getElem xs k hklen] at this
        simp [List.getD_eq_getElem?_getD, List.getElem?_eq_getElem hklen, this]
      · intro k hk hklen
        have := hhigh k hk hklen
        rw [tsAt_eq_getElem xs k hklen] at this
        simp [List.getD_eq_getElem?_getD, List.getElem?_eq_getElem hklen]
        omega
    rw [hcnt]
    simp only [find_closest, hbs]
    by_cases hcond : 0 < i ∧ i < xs.length
    · rw [if_pos hcond, if_pos hcond]
      show (if i < xs.length then some (xs.getD i default) else none) = some (xs.getD i default)
      exact if_pos hcond.2
    · rw [if_neg hcond, if_neg hcond]

lemma find_closest_before_first (xs : List Location) (t : Int) (hs : Chron xs)
    (hne : xs ≠ []) (ht : t < (xs.head hne).timestamp) : find_closest xs t = none := by
  have hlen : 0 < xs.length := List.length_pos.mpr hne
  have hh : (xs.head hne).timestamp = tsAt xs 0 := by
    rw [List.head_eq_getElem, ← tsAt_eq_getElem xs 0 hlen]
  rw [hh] at ht
  have hall : ∀ k, k < xs.length → t < tsAt xs k := fun k hk =>
    lt_of_lt_of_le ht (tsAt_mono hs (Nat.zero_le k) hk)
  have hmiss : ∀ r ∈ xs, r.timestamp ≠ t :=
    no_match_of_indexwise (fun k hk => by have := hall k hk; omega)
  rw [find_closest_miss xs t hs hmiss]
  have hcnt : xs.countP (fun r => decide (r.timestamp < t)) = 0 := by
    rw [List.countP_eq_zero]
    intro r hr
    obtain ⟨k, hk, rfl⟩ := List.mem_iff_getElem.mp hr
    have := hall k hk
    rw [tsAt_eq_getElem xs k hk] at this
    simp
    omega
  rw [hcnt]
  simp

lemma find_closest_after_last (xs : List Location) (t : Int) (hs : Chron xs)
    (hne : xs ≠ []) (ht : (xs.getLast hne).timestamp < t) : find_closest xs t = none := by
  have hlen : 0 < xs.length := List.length_pos.mpr hne
  have hh : (xs.getLast hne).timestamp = tsAt xs (xs.length - 1) := by
    rw [List.getLast_eq_getElem, ← tsAt_eq_getElem xs (xs.length - 1) (by omega)]
  rw [hh] at ht
  have hall : ∀ k, k < xs.length → tsAt xs k < t := fun k hk =>
    lt_of_le_of_lt (tsAt_mono hs (by omega) (by omega)) ht
  have hmiss : ∀ r ∈ xs, r.timestamp ≠ t :=
    no_match_of_indexwise (fun k hk => by have := hall k hk; omega)
  rw [find_closest_miss xs t hs hmiss]
  have hcnt : xs.countP (fun r => decide (r.timestamp < t)) = xs.length := by
    rw [List.countP_eq_length]
    intro r hr
    obtain ⟨k, hk, rfl⟩ := List.mem_iff_getElem.mp hr
    have := hall k hk
    rw [tsAt_eq_getElem xs k hk] at this
    simp
    omega
  rw [hcnt]
  simp

lemma ts_ex0 : tsAt [exR0, exR10, exR20] 0 = 0 := rfl

lemma ts_ex1 : tsAt [exR0, exR10, exR20] 1 = 10 := rfl

lemma ts_ex2 : tsAt [exR0, exR10, exR20] 2 = 20 := rfl

lemma bs_ex_neg5 : bsearch [exR0, exR10, exR20] (-5) 0 3 = Sum.inr 0 := by
  rw [bsearch]; norm_num [ts_ex0, ts_ex1, ts_ex2]
  rw [bsearch]; norm_num [ts_ex0, ts_ex1, ts_ex2]
  rw [bsearch]; norm_num

lemma bs_ex_0 : bsearch [exR0, exR10, exR20] 0 0 3 = Sum.inl 0 := by
  rw [bsearch]; norm_num [ts_ex0, ts_ex1, ts_ex2]
  rw [bsearch]; norm_num [ts_ex0, ts_ex1, ts_ex2]

lemma bs_ex_10 : bsearch [exR0, exR10, exR20] 10 0 3 = Sum.inl 1 := by
  rw [bsearch]; norm_num [ts_ex0, ts_ex1, ts_ex2]

lemma bs_ex_15 : bsearch [exR0, exR10, exR20] 15 0 3 = Sum.inr 2 := by
  rw [bsearch]; norm_num [ts_ex0, ts_ex1, ts_ex2]
  rw [bsearch]; norm_num [ts_ex0, ts_ex1, ts_ex2]
  rw [bsearch]; norm_num

lemma bs_ex_25 : bsearch [exR0, exR10, exR20] 25 0 3 = Sum.inr 3 := by
  rw [bsearch]; norm_num [ts_ex0, ts_ex1, ts_ex2]
  rw [bsearch]; norm_num [ts_ex0, ts_ex1, ts_ex2]
  rw [bsearch]; norm_num

lemma fc_ex_neg5 : find_closest ex3 (-5) = none := by
  simp [find_closest, ex3, bs_ex_neg5]

lemma fc_ex_10 : find_closest ex3 10 = some exR10 := by
  simp [find_closest, ex3, bs_ex_10]

lemma fc_ex_15 : find_closest ex3 15 = some exR20 := by
  simp [find_closest, ex3, bs_ex_15]

lemma fc_ex_25 : find_closest ex3 25 = none := by
  simp [find_closest, ex3, bs_ex_25]

instance (xs : List Location) : Decidable (Chron xs) := by
  unfold Chron
  infer_instance

/-! Claim theorems. -/

/-- C6: on a chronologically sorted collection, `find_closest` returns a
record with timestamp exactly `t` when one exists; otherwise, with `i` the
insertion index of `t` (the number of strictly smaller timestamps), it returns
the record at index `i` iff `0 < i < length` and no match otherwise; and on
records at t = 0, 10, 20 the queries −5, 10, 15, 25 give no match, the record
at 10, the record at 20, and no match respectively. -/
theorem C6_find_closest_spec (xs : List Location) (t : Int) (hs : Chron xs) :
    ((∃ r ∈ xs, r.timestamp = t) →
      ∃ r, find_closest xs t = some r ∧ r ∈ xs ∧ r.timestamp = t)
    ∧ ((∀ r ∈ xs, r.timestamp ≠ t) →
      find_closest xs t =
        if 0 < xs.countP (fun r => decide (r.timestamp < t)) ∧
           xs.countP (fun r => decide (r.timestamp < t)) < xs.length
        then some (xs.getD (xs.countP (fun r => decide (r.timestamp < t))) default)
        else none)
    ∧ find_closest ex3 (-5) = none ∧ find_closest ex3 10 = some exR10
    ∧ find_closest ex3 15 = some exR20 ∧ find_closest ex3 25 = none :=
  ⟨find_closest_exact xs t hs, find_closest_miss xs t hs,
   fc_ex_neg5, fc_ex_10, fc_ex_15, fc_ex_25⟩

/-- Witness for C6 at the concrete sorted fixture. -/
theorem C6_witness : find_closest ex3 15 = some exR20 :=
  (C6_find_closest_spec ex3 15 (by decide)).2.2.2.2.1

/-- C7 (amended): on a non-empty sorted collection, every query strictly
before the first timestamp and every query strictly after the last timestamp
yields no match; a query exactly at the first or last timestamp finds an
exact match (this is what the counterexample forces: "at or before" / "at or
after" had to become strict). -/
theorem C7_boundary_amended (xs : List Location) (hs : Chron xs) (hne : xs ≠ []) :
    (∀ t, t < (xs.head hne).timestamp → find_closest xs t = none)
    ∧ (∀ t, (xs.getLast hne).timestamp < t → find_closest xs t = none)
    ∧ (∃ r, find_closest xs (xs.head hne).timestamp = some r ∧
        r.timestamp = (xs.head hne).timestamp)
    ∧ (∃ r, find_closest xs (xs.getLast hne).timestamp = some r ∧
        r.timestamp = (xs.getLast hne).timestamp) := by
  refine ⟨fun t ht => find_closest_before_first xs t hs hne ht,
    fun t ht => find_closest_after_last xs t hs hne ht, ?_, ?_⟩
  · obtain ⟨r, h1, _, h3⟩ :=
      find_closest_exact xs _ hs ⟨xs.head hne, List.head_mem hne, rfl⟩
    exact ⟨r, h1, h3⟩
  · obtain ⟨r, h1, _, h3⟩ :=
      find_closest_exact xs _ hs ⟨xs.getLast hne, List.getLast_mem hne, rfl⟩
    exact ⟨r, h1, h3⟩

/-- Counterexample to C7 as stated: a query exactly *at* the first record's
timestamp (t = 0 on the t = 0, 10, 20 fixture) does return a match, while the
claim predicts no match for every query at or before the first timestamp. -/
theorem C7_at_first_refuted :
    find_closest ex3 0 = some exR0 ∧ (ex3.head (by simp [ex3])).timestamp = 0 := by
  constructor
  · simp [find_closest, ex3, bs_ex_0]
  · rfl

/-- Witness for C7 at the concrete sorted fixture. -/
theorem C7_witness : find_closest ex3 (-5) = none :=
  (C7_boundary_amended ex3 (by decide) (by simp [ex3])).1 (-5) (by decide)

/-- C9: `filter_by_distance` keeps the retained records as a subsequence of
the input in input order, so a chronologically sorted input yields a
chronologically sorted output. -/
theorem C9_filter_by_distance_subsequence (hav : Rat × Rat → Rat × Rat → Rat)
    (c : List Location) (p : Rat × Rat) (r : Rat) :
    (filter_by_distance hav c p r).Sublist c
    ∧ (Chron c → Chron (filter_by_distance hav c p r)) :=
  ⟨List.filter_sublist c, fun hc => List.Pairwise.sublist (List.filter_sublist c) hc⟩

/-- Witness for C9 at a concrete collection and distance function. -/
theorem C9_witness : Chron (filter_by_distance (fun _ _ => 0) ex3 (0, 0) 1) :=
  (C9_filter_by_distance_subsequence (fun _ _ => 0) ex3 (0, 0) 1).2 (by decide)

/-- C2 (code bug): on an empty collection the Rust code evaluates `self[0]`
and panics (modelled by `none`); there is no recoverable `EmptyInputError`
anywhere in the implementation. -/
theorem C2_filter_outliers_empty_panics (dist : Location → Location → Rat) :
    filter_outliers dist [] = none := rfl

/-- C1 (code bug): on the A/B/C fixture the pass rejects B (500 km/h) and
keeps C, but the seed record A is pushed twice — once as the seed and once as
the first candidate (elapsed time 0 yields no speed, hence an unconditional
keep) — so the output is [A, A, C] with timestamps [0, 0, 120], not the
claimed duplicate-free set made of A and C. -/
theorem C1_filter_outliers_duplicates_seed :
    filter_outliers dEx [exA, exB, exC] = some [exA, exA, exC]
    ∧ ((filter_outliers dEx [exA, exB, exC]).getD []).map (fun r => r.timestamp)
        = [0, 0, 120] := by
  have h : filter_outliers dEx [exA, exB, exC] = some [exA, exA, exC] := by
    norm_num [filter_outliers, outlier_pass, speed_kmh, exA, exB, exC, dEx,
      sort_chronological, List.insertionSort, List.orderedInsert, chronLE]
  refine ⟨h, ?_⟩
  rw [h]
  rfl

/-- One step of the outlier pass, phrased as a single keep condition. -/
lemma outlier_keep_rule (dist : Location → Location → Rat) (rest : List Location)
    (loc lastAcc : Location) (accRev : List Location) :
    outlier_pass dist (loc :: rest) lastAcc accRev =
      if loc.timestamp - lastAcc.timestamp ≤ 0 ∨ 600 ≤ loc.timestamp - lastAcc.timestamp
         ∨ dist loc lastAcc / ((loc.timestamp - lastAcc.timestamp : Int) : Rat) * (18 / 5) < 300
      then outlier_pass dist rest loc (lastAcc :: accRev)
      else outlier_pass dist rest lastAcc accRev := by
  by_cases hc : 0 < loc.timestamp - lastAcc.timestamp ∧ loc.timestamp - lastAcc.timestamp < 600
  · have hsp : speed_kmh dist loc lastAcc =
        some (dist loc lastAcc / ((loc.timestamp - lastAcc.timestamp : Int) : Rat) * (18 / 5)) := by
      simp [speed_kmh, hc]
    by_cases hs : dist loc lastAcc / ((loc.timestamp - lastAcc.timestamp : Int) : Rat) * (18 / 5) < 300
    · rw [if_pos (Or.inr (Or.inr hs))]
      simp only [outlier_pass, hsp]
      rw [if_pos hs]
    · rw [if_neg (by push_neg; exact ⟨by omega, by omega, not_lt.mp hs⟩)]
      simp only [outlier_pass, hsp]
      rw [if_neg hs]
  · have hsp : speed_kmh dist loc lastAcc = none := by
      simp only [speed_kmh]
      rw [if_neg hc]
    have hor : loc.timestamp - lastAcc.timestamp ≤ 0 ∨ 600 ≤ loc.timestamp - lastAcc.timestamp := by
      omega
    rw [if_pos (by tauto)]
    simp only [outlier_pass, hsp]

/-- C4 (amended): a candidate is kept unconditionally whenever the elapsed
time is ≤ 0 **or ≥ 600** seconds (the code computes a speed only on the open
interval 0 < Δt < 600, so the unconditional-keep region includes Δt = 600
exactly); otherwise it is kept iff `dist / Δt × 3.6 < 300`.  In particular a
candidate 601 s after the last accumulated record is always kept. -/
theorem C4_keep_rule_amended :
    (∀ (dist : Location → Location → Rat) (rest : List Location)
       (loc lastAcc : Location) (accRev : List Location),
      outlier_pass dist (loc :: rest) lastAcc accRev =
        if loc.timestamp - lastAcc.timestamp ≤ 0 ∨ 600 ≤ loc.timestamp - lastAcc.timestamp
           ∨ dist loc lastAcc / ((loc.timestamp - lastAcc.timestamp : Int) : Rat) * (18 / 5) < 300
        then outlier_pass dist rest loc (lastAcc :: accRev)
        else outlier_pass dist rest lastAcc accRev)
    ∧ (∀ (dist : Location → Location → Rat) (rest : List Location)
       (loc lastAcc : Location) (accRev : List Location),
      loc.timestamp - lastAcc.timestamp = 601 →
        outlier_pass dist (loc :: rest) lastAcc accRev
          = outlier_pass dist rest loc (lastAcc :: accRev)) := by
  refine ⟨outlier_keep_rule, fun dist rest loc lastAcc accRev h => ?_⟩
  rw [outlier_keep_rule]
  exact if_pos (Or.inr (Or.inl (by omega)))

/-- Counterexample to C4 as stated: at an elapsed time of exactly 600 s and a
distance of 100000 m (600 km/h), the claim's rule (speed computed for every
0 < Δt ≤ 600, candidate discarded at ≥ 300 km/h) rejects the candidate, but
the code computes no speed at Δt = 600 and keeps it. -/
theorem C4_boundary_600_refuted :
    ¬ claimed_keep dEx exQ600 exA
    ∧ speed_kmh dEx exQ600 exA = none
    ∧ filter_outliers dEx [exA, exQ600] = some [exA, exA, exQ600] := by
  refine ⟨?_, ?_, ?_⟩
  · simp only [claimed_keep, exQ600, exA, dEx]
    norm_num
  · simp [speed_kmh, exQ600, exA]
  · norm_num [filter_outliers, outlier_pass, speed_kmh, exA, exQ600, dEx,
      sort_chronological, List.insertionSort, List.orderedInsert, chronLE]

/-- Witness for C4: a candidate exactly 601 s after the accumulator tail is
kept. -/
theorem C4_witness :
    outlier_pass (fun _ _ => 0) [exQ601] exA []
      = outlier_pass (fun _ _ => 0) [] exQ601 [exA] :=
  C4_keep_rule_amended.2 (fun _ _ => 0) [] exQ601 exA [] (by decide)

lemma foldl_add_map (g : Nat → Int) :
    ∀ (l : List Nat) (init : Int), l.foldl (fun t i => t + g i) init = init + (l.map g).sum := by
  intro l
  induction l with
  | nil => intro init; simp
  | cons x xs ih =>
    intro init
    simp only [List.foldl_cons, List.map_cons, List.sum_cons, ih]
    ring

lemma sum_range'_shift (f : Nat → Int) :
    ∀ (n s : Nat), ((List.range' (s + 1) n).map f).sum
      = ((List.range' s n).map (fun i => f (i + 1))).sum := by
  intro n
  induction n with
  | zero => intro s; simp
  | succ m ih =>
    intro s
    rw [List.range'_succ, List.range'_succ]
    simp only [List.map_cons, List.sum_cons, ih (s + 1)]

/-- The indexed delta sum of `average_time`'s loop equals the sum of the
adjacent (later − earlier) deltas. -/
lemma deltas_eq :
    ∀ (ys : List Location) (a : Location),
      ((List.range' 1 ys.length).map (fun i =>
        ((a :: ys).getD i default).timestamp - ((a :: ys).getD (i - 1) default).timestamp)).sum
      = (adjacent_deltas (a :: ys)).sum := by
  intro ys
  induction ys with
  | nil => intro a; simp [adjacent_deltas]
  | cons b rest ih =>
    intro a
    have hlen : (b :: rest).length = rest.length + 1 := rfl
    rw [hlen, List.range'_succ]
    simp only [List.map_cons, List.sum_cons]
    have hshift := sum_range'_shift (fun i =>
      ((a :: b :: rest).getD i default).timestamp
        - ((a :: b :: rest).getD (i - 1) default).timestamp) rest.length 1
    rw [hshift]
    have hcongr : ((List.range' 1 rest.length).map (fun i =>
        ((a :: b :: rest).getD (i + 1) default).timestamp
          - ((a :: b :: rest).getD (i + 1 - 1) default).timestamp)).sum
      = ((List.range' 1 rest.length).map (fun i =>
        ((b :: rest).getD i default).timestamp
          - ((b :: rest).getD (i - 1) default).timestamp)).sum := by
      congr 1
      apply List.map_congr_left
      intro i hi
      have h1 : 1 ≤ i := by
        have := List.mem_range'_1.mp hi
        omega
      have e1 : (a :: b :: rest).getD (i + 1) default = (b :: rest).getD i default := by
        simp [List.getD_cons_succ]
      have e2 : (a :: b :: rest).getD (i + 1 - 1) default = (b :: rest).getD (i - 1) default := by
        have h2 : i + 1 - 1 = i := by omega
        rw [h2]
        obtain ⟨j, rfl⟩ : ∃ j, i = j + 1 := ⟨i - 1, by omega⟩
        simp [List.getD_cons_succ]
      rw [e1, e2]
    rw [hcongr, ih b]
    have hadj : adjacent_deltas (a :: b :: rest)
        = (b.timestamp - a.timestamp) :: adjacent_deltas (b :: rest) := by
      simp [adjacent_deltas]
    rw [hadj]
    simp [List.getD_cons_succ]

lemma average_time_eq (xs : List Location) :
    average_time xs = Int.tdiv (adjacent_deltas xs).sum xs.length := by
  match xs with
  | [] => rfl
  | a :: ys =>
    unfold average_time
    have hlen : (a :: ys).length - 1 = ys.length := rfl
    rw [hlen, foldl_add_map, deltas_eq ys a]
    simp

/-- C5 (amended): for at least two records, `average_time` returns the sum of
the adjacent later-minus-earlier deltas divided — with truncating integer
division — by the **total number of records** (`length`, not the number of
adjacent pairs `length − 1`). -/
theorem C5_average_time_amended (xs : List Location) (h : 2 ≤ xs.length) :
    average_time xs = Int.tdiv (adjacent_deltas xs).sum xs.length :=
  average_time_eq xs

/-- Counterexample to C5 as stated: two records 10 s apart have a single
adjacent delta of 10 s, so the claimed mean is 10, but the code divides by
the record count and returns 5. -/
theorem C5_divisor_refuted :
    average_time [exR0, exR10] = 5 ∧ claimed_average [exR0, exR10] = 10 :=
  ⟨rfl, rfl⟩

/-- Witness for C5 at a concrete two-record collection. -/
theorem C5_witness :
    average_time [exR0, exR10] = Int.tdiv (adjacent_deltas [exR0, exR10]).sum 2 :=
  C5_average_time_amended [exR0, exR10] (by decide)

/-! Lemmas about the per-observation selection of `filter_by_activity`. -/

/-- Surgery step: the fold of Rust's `max_by_key` absorbs the first two
elements into the one it would keep (the later element on a confidence tie)
without changing the last-maximal selection. -/
lemma spec_select_cons_cons (a x : Activity) (xs : List Activity) :
    spec_select (a :: x :: xs)
      = spec_select ((if a.confidence ≤ x.confidence then x else a) :: xs) := by
  by_cases hax : a.confidence ≤ x.confidence
  · rw [if_pos hax]
    unfold spec_select
    have hP : (fun (e : Activity) => (a :: x :: xs).all (fun b => decide (b.confidence ≤ e.confidence)))
        = (fun (e : Activity) => (x :: xs).all (fun b => decide (b.confidence ≤ e.confidence))) := by
      funext e
      by_cases hxe : x.confidence ≤ e.confidence
      · simp [List.all_cons, hxe, le_trans hax hxe]
      · simp [List.all_cons, hxe]
    rw [show (a :: x :: xs).reverse = xs.reverse ++ [x, a] by simp,
        show (x :: xs).reverse = xs.reverse ++ [x] by simp]
    simp only [hP]
    rw [List.find?_append, List.find?_append]
    congr 1
    show List.find? _ [x, a] = List.find? _ [x]
    simp only [List.find?_cons]
    by_cases hpx : (x :: xs).all (fun b => decide (b.confidence ≤ x.confidence))
    · simp [hpx]
    · simp only [hpx]
      by_cases hpa : (x :: xs).all (fun b => decide (b.confidence ≤ a.confidence))
      · exfalso
        apply hpx
        have hxa : x.confidence ≤ a.confidence := by
          rw [List.all_cons] at hpa
          simp only [Bool.and_eq_true, decide_eq_true_eq] at hpa
          exact hpa.1
        have hEq : x.confidence = a.confidence := le_antisymm hxa hax
        rw [← hEq] at hpa
        exact hpa
      · simp [hpa]
  · rw [if_neg hax]
    unfold spec_select
    have hP : (fun (e : Activity) => (a :: x :: xs).all (fun b => decide (b.confidence ≤ e.confidence)))
        = (fun (e : Activity) => (a :: xs).all (fun b => decide (b.confidence ≤ e.confidence))) := by
      funext e
      by_cases hae : a.confidence ≤ e.confidence
      · simp [List.all_cons, hae, le_trans (le_of_lt (not_le.mp hax)) hae]
      · simp [List.all_cons, hae]
    rw [show (a :: x :: xs).reverse = xs.reverse ++ [x, a] by simp,
        show (a :: xs).reverse = xs.reverse ++ [a] by simp]
    simp only [hP]
    rw [List.find?_append, List.find?_append]
    congr 1
    show List.find? _ [x, a] = List.find? _ [a]
    simp only [List.find?_cons]
    have hpx : ¬ (a :: xs).all (fun b => decide (b.confidence ≤ x.confidence)) = true := by
      intro hc
      rw [List.all_cons] at hc
      simp only [Bool.and_eq_true, decide_eq_true_eq] at hc
      exact absurd hc.1 hax
    simp [hpx]

lemma spec_select_cons (a : Activity) :
    ∀ rest : List Activity, spec_select (a :: rest)
      = some (rest.foldl (fun acc x => if acc.confidence ≤ x.confidence then x else acc) a) := by
  intro rest
  induction rest generalizing a with
  | nil => simp [spec_select]
  | cons x xs ih =>
    rw [spec_select_cons_cons]
    rw [ih]
    rfl

/-- Rust's `max_by_key(|x| x.confidence)` returns exactly the *last* element
attaining the maximal confidence. -/
lemma max_by_eq_spec_select (l : List Activity) : max_by_confidence l = spec_select l := by
  match l with
  | [] => rfl
  | a :: rest => rw [max_by_confidence, spec_select_cons]

lemma observation_match_eq (gm : String → String → Bool) (pattern : String) :
    ∀ obs : List Activities, observation_match gm pattern obs
      = obs.any (fun o =>
          match max_by_confidence o.activities with
          | some e => gm pattern e.activity_type
          | none => false) := by
  intro obs
  induction obs with
  | nil => rfl
  | cons o rest ih =>
    rw [List.any_cons, observation_match]
    match h : max_by_confidence o.activities with
    | some a =>
      by_cases hg : gm pattern a.activity_type
      · simp [h, hg]
      · simp [h, hg, ih]
    | none => simp [h, ih]

lemma keep_eq (gm : String → String → Bool) (pattern : String) (loc : Location) :
    (match loc.activities with
     | some obs => observation_match gm pattern obs
     | none => false) = spec_keep_with spec_select gm pattern loc := by
  match hact : loc.activities with
  | none => simp [spec_keep_with, hact]
  | some obs =>
    show observation_match gm pattern obs = spec_keep_with spec_select gm pattern loc
    rw [observation_match_eq]
    simp only [spec_keep_with, hact, Option.getD_some, max_by_eq_spec_select]

/-- C3 (amended): `filter_by_activity` retains exactly the records having some
observation whose single highest-confidence label — ties broken by the
**last**-encountered label in stored order, because Rust's `max_by_key`
returns the last maximal element — fits the pattern, and re-sorts the result
chronologically. -/
theorem C3_filter_by_activity_last_tie (gm : String → String → Bool)
    (pattern : String) (c : List Location) :
    filter_by_activity gm pattern c
      = sort_chronological (c.filter (spec_keep_with spec_select gm pattern))
    ∧ List.Sorted chronLE (filter_by_activity gm pattern c) := by
  constructor
  · unfold filter_by_activity
    congr 1
    apply List.filter_congr
    intro loc _
    exact keep_eq gm pattern loc
  · unfold filter_by_activity sort_chronological
    exact List.sorted_insertionSort chronLE _

/-- Counterexample to C3 as stated: on a record whose single observation ties
ON_FOOT (stored first) with STILL (stored second) at confidence 50, the code
selects STILL and drops the record for the literal pattern "ON_FOOT", while
the claim's first-encountered tie-break selects ON_FOOT and keeps it. -/
theorem C3_first_tie_refuted :
    filter_by_activity eqm "ON_FOOT" [recTie] = []
    ∧ sort_chronological
        (List.filter (spec_keep_with spec_select_first eqm "ON_FOOT") [recTie]) = [recTie] :=
  ⟨rfl, rfl⟩

/-- Witness for C3 at a concrete pattern and record. -/
theorem C3_witness :
    filter_by_activity eqm "STILL" [recTie]
      = sort_chronological (List.filter (spec_keep_with spec_select eqm "STILL") [recTie]) :=
  (C3_filter_by_activity_last_tie eqm "STILL" [recTie]).1

/-! Lemmas about the confidence maps of `merged_activities`. -/

lemma alook_alist_add (m : List (ActivityType × Int)) (k : ActivityType) (c : Int)
    (T : ActivityType) :
    alook (alist_add m k c) T =
      if T = k then some ((alook m T).getD 0 + c) else alook m T := by
  induction m with
  | nil =>
    by_cases hT : T = k
    · subst hT; simp [alist_add, alook]
    · have hkT : ¬ k = T := fun h => hT h.symm
      simp [alist_add, alook, hT, hkT]
  | cons p rest ih =>
    by_cases hpk : p.1 = k
    · by_cases hT : T = k
      · subst hT
        simp [alist_add, alook, hpk]
      · have hkT : ¬ k = T := fun h => hT h.symm
        have hpT : p.1 ≠ T := fun h => hT (h ▸ hpk ▸ rfl)
        simp [alist_add, alook, hpk, hpT, hT, hkT]
    · by_cases hpT : p.1 = T
      · have hT : T ≠ k := fun h => hpk (h ▸ hpT)
        simp [alist_add, alook, hpk, hpT, hT]
      · simp [alist_add, alook, hpk, hpT, ih]

lemma keySum_zero_of_not_has (ps : List (ActivityType × Int)) (T : ActivityType)
    (h : ps.any (fun p => decide (p.1 = T)) = false) : keySum ps T = 0 := by
  unfold keySum
  have hnil : ps.filter (fun p => decide (p.1 = T)) = [] := by
    rw [List.filter_eq_nil_iff]
    intro p hp
    have := List.any_eq_false.mp h p hp
    simpa using this
  rw [hnil]
  simp

lemma alook_add_all (ps : List (ActivityType × Int)) :
    ∀ (m : List (ActivityType × Int)) (T : ActivityType),
      alook (add_all m ps) T =
        if ps.any (fun p => decide (p.1 = T)) then
          some ((alook m T).getD 0 + keySum ps T)
        else alook m T := by
  induction ps with
  | nil => intro m T; simp [add_all]
  | cons q ps ih =>
    intro m T
    have hstep : add_all m (q :: ps) = add_all (alist_add m q.1 q.2) ps := rfl
    rw [hstep, ih]
    by_cases hq : q.1 = T
    · have hkS : keySum (q :: ps) T = q.2 + keySum ps T := by
        simp [keySum, List.filter_cons, hq]
      by_cases hany : ps.any (fun p => decide (p.1 = T)) = true
      · rw [if_pos hany, if_pos (by simp [hq])]
        rw [alook_alist_add, if_pos hq.symm, hkS]
        simp [add_assoc]
      · rw [if_neg hany, if_pos (by simp [hq])]
        rw [alook_alist_add, if_pos hq.symm, hkS]
        rw [keySum_zero_of_not_has ps T (Bool.eq_false_iff.mpr hany)]
        simp
    · have hkS : keySum (q :: ps) T = keySum ps T := by
        simp [keySum, List.filter_cons, hq]
      have hTq : T ≠ q.1 := fun h => hq h.symm
      by_cases hany : ps.any (fun p => decide (p.1 = T)) = true
      · rw [if_pos hany, if_pos (by simp [hany]), hkS]
        rw [alook_alist_add, if_neg hTq]
      · have hnone : ¬ ((q :: ps).any (fun p => decide (p.1 = T)) = true) := by
          simp only [List.any_cons, Bool.or_eq_true, decide_eq_true_eq]
          rintro (h | h)
          · exact hq h
          · exact hany h
        rw [if_neg hany, if_neg hnone]
        rw [alook_alist_add, if_neg hTq]

lemma activities_to_map_eq (obs : Activities) :
    activities_to_map obs = add_all [] (pairsOf obs) := by
  unfold activities_to_map add_all pairsOf
  rw [List.foldl_map]

lemma any_eq_alook_isSome (m : List (ActivityType × Int)) (T : ActivityType) :
    m.any (fun p => decide (p.1 = T)) = (alook m T).isSome := by
  induction m with
  | nil => rfl
  | cons p rest ih =>
    rw [List.any_cons, alook]
    by_cases hpT : p.1 = T
    · simp [hpT]
    · simp [hpT, ih]

lemma akeys_alist_add_mem (m : List (ActivityType × Int)) (k : ActivityType) (c : Int)
    (T : ActivityType) :
    T ∈ akeys (alist_add m k c) ↔ T ∈ akeys m ∨ T = k := by
  induction m with
  | nil => simp [alist_add, akeys]
  | cons p rest ih =>
    by_cases hpk : p.1 = k
    · simp only [alist_add, if_pos hpk, akeys, List.map_cons, List.mem_cons]
      constructor
      · rintro (h | h)
        · exact Or.inl (Or.inl h)
        · exact Or.inl (Or.inr h)
      · rintro ((h | h) | h)
        · exact Or.inl h
        · exact Or.inr h
        · exact Or.inl (by rw [h, ← hpk])
    · simp only [alist_add, if_neg hpk, akeys, List.map_cons, List.mem_cons]
      rw [show (alist_add rest k c).map (fun p => p.1) = akeys (alist_add rest k c) from rfl]
      rw [ih]
      show T = p.1 ∨ _ ↔ _
      rw [show rest.map (fun p => p.1) = akeys rest from rfl]
      tauto

lemma akeys_alist_add_nodup (m : List (ActivityType × Int)) (k : ActivityType) (c : Int)
    (hnd : (akeys m).Nodup) : (akeys (alist_add m k c)).Nodup := by
  induction m with
  | nil => simp [alist_add, akeys]
  | cons p rest ih =>
    rw [akeys, List.map_cons, List.nodup_cons] at hnd
    by_cases hpk : p.1 = k
    · simp only [alist_add, if_pos hpk, akeys, List.map_cons, List.nodup_cons]
      exact ⟨hnd.1, hnd.2⟩
    · simp only [alist_add, if_neg hpk, akeys, List.map_cons, List.nodup_cons]
      refine ⟨?_, ih hnd.2⟩
      intro hmem
      rw [show (alist_add rest k c).map (fun p => p.1) = akeys (alist_add rest k c) from rfl] at hmem
      rcases (akeys_alist_add_mem rest k c p.1).mp hmem with h | h
      · exact hnd.1 h
      · exact hpk h

lemma akeys_add_all_nodup (ps : List (ActivityType × Int)) :
    ∀ m, (akeys m).Nodup → (akeys (add_all m ps)).Nodup := by
  induction ps with
  | nil => intro m h; exact h
  | cons q ps ih =>
    intro m h
    exact ih (alist_add m q.1 q.2) (akeys_alist_add_nodup m q.1 q.2 h)

lemma mem_akeys_of_alook (m : List (ActivityType × Int)) (T : ActivityType) (v : Int)
    (h : alook m T = some v) : T ∈ akeys m := by
  induction m with
  | nil => simp [alook] at h
  | cons p rest ih =>
    rw [alook] at h
    by_cases hpT : p.1 = T
    · rw [akeys, List.map_cons, ← hpT]
      exact List.mem_cons_self _ _
    · rw [if_neg hpT] at h
      rw [akeys, List.map_cons]
      exact List.mem_cons_of_mem _ (ih h)

lemma not_has_of_not_mem_akeys (m : List (ActivityType × Int)) (T : ActivityType)
    (h : T ∉ akeys m) : m.any (fun p => decide (p.1 = T)) = false := by
  rw [any_eq_alook_isSome]
  cases hlk : alook m T with
  | none => rfl
  | some v => exact absurd (mem_akeys_of_alook m T v hlk) h

lemma keySum_eq_alook_of_nodup (m : List (ActivityType × Int)) (T : ActivityType)
    (hnd : (akeys m).Nodup) : keySum m T = (alook m T).getD 0 := by
  induction m with
  | nil => simp [keySum, alook]
  | cons p rest ih =>
    rw [akeys, List.map_cons, List.nodup_cons] at hnd
    by_cases hpT : p.1 = T
    · have hrest0 : keySum rest T = 0 := by
        apply keySum_zero_of_not_has
        apply not_has_of_not_mem_akeys
        rw [← hpT]
        exact fun hc => hnd.1 hc
      rw [alook, if_pos hpT]
      unfold keySum
      rw [List.filter_cons, if_pos (by simpa using hpT)]
      simp only [List.map_cons, List.sum_cons]
      have hz : ((rest.filter (fun p => decide (p.1 = T))).map (fun p => p.2)).sum = 0 := hrest0
      rw [hz]
      simp
    · rw [alook, if_neg hpT]
      unfold keySum
      rw [List.filter_cons, if_neg (by simpa using hpT)]
      exact ih hnd.2

lemma any_activities_to_map (obs : Activities) (T : ActivityType) :
    (activities_to_map obs).any (fun p => decide (p.1 = T))
      = (pairsOf obs).any (fun p => decide (p.1 = T)) := by
  rw [activities_to_map_eq, any_eq_alook_isSome, alook_add_all]
  by_cases h : (pairsOf obs).any (fun p => decide (p.1 = T)) = true
  · rw [if_pos h, h]
    rfl
  · rw [if_neg h, Bool.eq_false_iff.mpr h]
    rfl

lemma keySum_activities_to_map (obs : Activities) (T : ActivityType) :
    keySum (activities_to_map obs) T = keySum (pairsOf obs) T := by
  rw [activities_to_map_eq,
    keySum_eq_alook_of_nodup _ _ (akeys_add_all_nodup _ [] (by simp [akeys])),
    alook_add_all]
  by_cases h : (pairsOf obs).any (fun p => decide (p.1 = T)) = true
  · rw [if_pos h]
    show (alook ([] : List (ActivityType × Int)) T).getD 0 + keySum (pairsOf obs) T = _
    show (none : Option Int).getD 0 + keySum (pairsOf obs) T = _
    simp
  · rw [if_neg h, keySum_zero_of_not_has _ _ (Bool.eq_false_iff.mpr h)]
    rfl

lemma fold_add_all_eq (l : List Activities) :
    ∀ acc, l.foldl (fun a obs => add_all a (activities_to_map obs)) acc
      = add_all acc (l.flatMap activities_to_map) := by
  induction l with
  | nil => intro acc; rfl
  | cons obs l ih =>
    intro acc
    rw [List.foldl_cons, ih]
    rw [show (obs :: l).flatMap activities_to_map
        = activities_to_map obs ++ l.flatMap activities_to_map by simp]
    unfold add_all
    rw [List.foldl_append]

lemma any_flat (l : List Activities) (T : ActivityType) :
    (l.flatMap activities_to_map).any (fun p => decide (p.1 = T))
      = (l.flatMap pairsOf).any (fun p => decide (p.1 = T)) := by
  induction l with
  | nil => rfl
  | cons obs l ih =>
    rw [show (obs :: l).flatMap activities_to_map
        = activities_to_map obs ++ l.flatMap activities_to_map by simp,
      show (obs :: l).flatMap pairsOf = pairsOf obs ++ l.flatMap pairsOf by simp,
      List.any_append, List.any_append, any_activities_to_map, ih]

lemma keySum_append (ps qs : List (ActivityType × Int)) (T : ActivityType) :
    keySum (ps ++ qs) T = keySum ps T + keySum qs T := by
  simp [keySum, List.filter_append]

lemma keySum_flat (l : List Activities) (T : ActivityType) :
    keySum (l.flatMap activities_to_map) T = keySum (l.flatMap pairsOf) T := by
  induction l with
  | nil => rfl
  | cons obs l ih =>
    rw [show (obs :: l).flatMap activities_to_map
        = activities_to_map obs ++ l.flatMap activities_to_map by simp,
      show (obs :: l).flatMap pairsOf = pairsOf obs ++ l.flatMap pairsOf by simp,
      keySum_append, keySum_append, keySum_activities_to_map, ih]

/-- Lookup in the final `all_activities` map of `merged_activities`: present
iff the label occurs somewhere in the record, carrying the per-label global
sum of confidences. -/
lemma alook_merged_map (rec : Location) (T : ActivityType) :
    alook (merged_map rec) T =
      if (allPairs rec).any (fun p => decide (p.1 = T)) then
        some (keySum (allPairs rec) T)
      else none := by
  unfold merged_map allPairs
  rw [fold_add_all_eq, alook_add_all, any_flat, keySum_flat]
  by_cases h : ((rec.activities.getD []).flatMap pairsOf).any
      (fun p => decide (p.1 = T)) = true
  · rw [if_pos h, if_pos h]
    show some ((none : Option Int).getD 0 + _) = _
    simp
  · rw [if_neg h, if_neg h]
    rfl

lemma merged_map_akeys_nodup (rec : Location) : (akeys (merged_map rec)).Nodup := by
  unfold merged_map
  rw [fold_add_all_eq]
  exact akeys_add_all_nodup _ [] (by simp [akeys])

lemma mem_alist_iff_alook (m : List (ActivityType × Int)) (hnd : (akeys m).Nodup)
    (T : ActivityType) (c : Int) : (T, c) ∈ m ↔ alook m T = some c := by
  induction m with
  | nil => simp [alook]
  | cons p rest ih =>
    rw [akeys, List.map_cons, List.nodup_cons] at hnd
    rw [List.mem_cons, alook]
    by_cases hpT : p.1 = T
    · rw [if_pos hpT]
      constructor
      · rintro (h | h)
        · rw [← h]
        · exfalso
          apply hnd.1
          rw [hpT]
          exact List.mem_map.mpr ⟨(T, c), h, rfl⟩
      · intro h
        left
        have hc : p.2 = c := Option.some.inj h
        calc (T, c) = (p.1, p.2) := by rw [hpT, hc]
          _ = p := rfl
    · rw [if_neg hpT]
      rw [← ih hnd.2]
      constructor
      · rintro (h | h)
        · exact absurd (congrArg Prod.fst h).symm hpT
        · exact h
      · exact Or.inr

lemma allPairs_eq (rec : Location) :
    allPairs rec = (all_acts rec).map
      (fun a => (activity_type_of_string a.activity_type, a.confidence)) := by
  unfold allPairs all_acts pairsOf
  rw [List.map_flatMap]

lemma keySum_pairs_total (rec : Location) (T : ActivityType) :
    keySum (allPairs rec) T = total_confidence rec T := by
  rw [allPairs_eq]
  unfold keySum total_confidence
  rw [List.filter_map, List.map_map]
  rfl

lemma any_pairs_occurs (rec : Location) (T : ActivityType) :
    (allPairs rec).any (fun p => decide (p.1 = T)) = true ↔ occurs_type rec T := by
  rw [allPairs_eq]
  unfold occurs_type
  simp [List.any_eq_true, List.mem_map]

lemma string_of_inj : Function.Injective string_of_activity_type := by
  intro a b h
  cases a <;> cases b <;> first | rfl | exact absurd h (by decide)

/-- Membership in `merged_activities`: exactly one entry per occurring enum
label, with the globally summed confidence. -/
lemma mem_merged_iff (rec : Location) (a : Activity) :
    a ∈ (merged_activities rec).activities ↔
      ∃ T : ActivityType, a.activity_type = string_of_activity_type T
        ∧ occurs_type rec T ∧ a.confidence = total_confidence rec T := by
  unfold merged_activities
  rw [(List.perm_insertionSort confGE _).mem_iff, List.mem_map]
  constructor
  · rintro ⟨⟨T, c⟩, hmem, rfl⟩
    refine ⟨T, rfl, ?_, ?_⟩
    · have hlk := (mem_alist_iff_alook _ (merged_map_akeys_nodup rec) T c).mp hmem
      rw [alook_merged_map] at hlk
      by_cases h : (allPairs rec).any (fun p => decide (p.1 = T)) = true
      · exact (any_pairs_occurs rec T).mp h
      · rw [if_neg h] at hlk
        exact absurd hlk (by simp)
    · have hlk := (mem_alist_iff_alook _ (merged_map_akeys_nodup rec) T c).mp hmem
      rw [alook_merged_map] at hlk
      by_cases h : (allPairs rec).any (fun p => decide (p.1 = T)) = true
      · rw [if_pos h] at hlk
        have hc : c = keySum (allPairs rec) T := (Option.some.inj hlk).symm
        show c = _
        rw [hc, keySum_pairs_total]
      · rw [if_neg h] at hlk
        exact absurd hlk (by simp)
  · rintro ⟨T, hty, hocc, hconf⟩
    refine ⟨(T, a.confidence), ?_, ?_⟩
    · rw [mem_alist_iff_alook _ (merged_map_akeys_nodup rec) T a.confidence,
        alook_merged_map, if_pos ((any_pairs_occurs rec T).mpr hocc), keySum_pairs_total]
      rw [hconf]
    · cases a
      simp only [Activity.mk.injEq]
      exact ⟨hty.symm, trivial⟩

lemma merged_sorted (rec : Location) :
    List.Sorted confGE (merged_activities rec).activities := by
  unfold merged_activities
  exact List.sorted_insertionSort confGE _

lemma merged_labels_nodup (rec : Location) :
    ((merged_activities rec).activities.map (fun a => a.activity_type)).Nodup := by
  unfold merged_activities
  have hperm := (List.perm_insertionSort confGE
    ((merged_map rec).map (fun p =>
      ({ activity_type := string_of_activity_type p.1, confidence := p.2 } : Activity)))).map
    (fun a => a.activity_type)
  rw [hperm.nodup_iff, List.map_map]
  show (List.map (string_of_activity_type ∘ (fun p => p.1)) (merged_map rec)).Nodup
  rw [← List.map_map]
  exact List.Nodup.map string_of_inj (merged_map_akeys_nodup rec)

/-- C8: `merged_activities` yields one flat list per record, sorted by
confidence descending, with each enum label appearing at most once, and an
entry present for a label iff the label occurs in some observation, carrying
the confidence summed globally across all observations; two observations each
reporting STILL at 80 merge into a single STILL entry at 160. -/
theorem C8_merged_activities_spec :
    (∀ rec : Location,
      List.Sorted confGE (merged_activities rec).activities
      ∧ ((merged_activities rec).activities.map (fun a => a.activity_type)).Nodup
      ∧ (∀ a : Activity, a ∈ (merged_activities rec).activities ↔
          ∃ T : ActivityType, a.activity_type = string_of_activity_type T
            ∧ occurs_type rec T ∧ a.confidence = total_confidence rec T))
    ∧ (merged_activities recStill).activities = [⟨"STILL", 160⟩] :=
  ⟨fun rec => ⟨merged_sorted rec, merged_labels_nodup rec, mem_merged_iff rec⟩, rfl⟩

/-- Witness for C8: the merged STILL entry of the two-observation record is
present with the summed confidence 160. -/
theorem C8_witness :
    (⟨"STILL", 160⟩ : Activity) ∈ (merged_activities recStill).activities :=
  ((C8_merged_activities_spec.1 recStill).2.2 ⟨"STILL", 160⟩).mpr
    ⟨ActivityType.STILL, rfl, by decide, by decide⟩

/-! Lemmas for the UNKNOWN-collapse behaviour and `list_activities`. -/

lemma unrecognized_unknown (s : String) (hs : s ∉ recognized_labels) :
    activity_type_of_string s = ActivityType.UNKNOWN := by
  unfold activity_type_of_string
  split
  · exact absurd (by simp [recognized_labels]) hs
  · exact absurd (by simp [recognized_labels]) hs
  · exact absurd (by simp [recognized_labels]) hs
  · exact absurd (by simp [recognized_labels]) hs
  · exact absurd (by simp [recognized_labels]) hs
  · exact absurd (by simp [recognized_labels]) hs
  · exact absurd (by simp [recognized_labels]) hs
  · rfl
  · exact absurd (by simp [recognized_labels]) hs
  · rfl

lemma eq_singleton_of_labels_nodup (l : List Activity) (x : Activity)
    (hx : x ∈ l) (hall : ∀ a ∈ l, a = x)
    (hnd : (l.map (fun a => a.activity_type)).Nodup) : l = [x] := by
  match l with
  | [] => cases hx
  | [y] => rw [hall y (List.mem_cons_self y [])]
  | y :: z :: rest =>
    exfalso
    have hy := hall y (by simp)
    have hz := hall z (by simp)
    rw [List.map_cons, List.map_cons, List.nodup_cons] at hnd
    exact hnd.1 (by rw [hy, hz]; exact List.mem_cons_self _ _)

/-- A record whose every activity decodes to UNKNOWN merges into the single
entry `UNKNOWN` with the summed confidence. -/
lemma merged_single_unknown (rec : Location)
    (hne : all_acts rec ≠ [])
    (hall : ∀ a ∈ all_acts rec, activity_type_of_string a.activity_type = ActivityType.UNKNOWN) :
    (merged_activities rec).activities
      = [⟨"UNKNOWN", total_confidence rec ActivityType.UNKNOWN⟩] := by
  apply eq_singleton_of_labels_nodup _ _ ?hx ?hall (merged_labels_nodup rec)
  case hx =>
    rw [mem_merged_iff]
    obtain ⟨act, hact⟩ := List.exists_mem_of_ne_nil _ hne
    exact ⟨ActivityType.UNKNOWN, rfl, ⟨act, hact, hall act hact⟩, rfl⟩
  case hall =>
    intro a ha
    rw [mem_merged_iff] at ha
    obtain ⟨T, hty, hocc, hconf⟩ := ha
    obtain ⟨act, hact, hT⟩ := hocc
    have hTU : T = ActivityType.UNKNOWN := by rw [← hT, hall act hact]
    subst hTU
    cases a
    simp only [Activity.mk.injEq]
    exact ⟨hty, hconf⟩

lemma insert_unique_mem (s : List String) (x y : String) :
    y ∈ insert_unique s x ↔ y ∈ s ∨ y = x := by
  unfold insert_unique
  by_cases h : x ∈ s
  · rw [if_pos h]
    constructor
    · exact Or.inl
    · rintro (hy | rfl)
      · exact hy
      · exact h
  · rw [if_neg h]
    simp

lemma insert_unique_nodup (s : List String) (x : String) (h : s.Nodup) :
    (insert_unique s x).Nodup := by
  unfold insert_unique
  by_cases hx : x ∈ s
  · rw [if_pos hx]; exact h
  · rw [if_neg hx]
    rw [List.nodup_append]
    refine ⟨h, List.nodup_singleton x, ?_⟩
    intro a ha hax
    rw [List.mem_singleton] at hax
    exact hx (hax ▸ ha)

lemma foldl_insert_mem (l : List String) :
    ∀ (s : List String) (y : String), y ∈ l.foldl insert_unique s ↔ y ∈ s ∨ y ∈ l := by
  induction l with
  | nil => intro s y; simp
  | cons x l ih =>
    intro s y
    rw [List.foldl_cons, ih, insert_unique_mem, List.mem_cons]
    tauto

lemma foldl_insert_nodup (l : List String) :
    ∀ s : List String, s.Nodup → (l.foldl insert_unique s).Nodup := by
  induction l with
  | nil => intro s h; exact h
  | cons x l ih =>
    intro s h
    exact ih _ (insert_unique_nodup s x h)

lemma obs_fold_eq (obsList : List Activities) :
    ∀ s : List String,
      obsList.foldl (fun s obs =>
        obs.activities.foldl (fun s a => insert_unique s a.activity_type) s) s
      = ((obsList.flatMap (fun obs => obs.activities)).map
          (fun a => a.activity_type)).foldl insert_unique s := by
  induction obsList with
  | nil => intro s; rfl
  | cons obs l ih =>
    intro s
    rw [List.foldl_cons, ih]
    rw [show (obs :: l).flatMap (fun o => o.activities)
        = obs.activities ++ l.flatMap (fun o => o.activities) by simp]
    rw [List.map_append, List.foldl_append, List.foldl_map]
    rw [List.foldl_map]
    congr 1
    rw [List.foldl_map]

lemma list_activities_eq_aux (c : List Location) :
    ∀ s : List String,
      c.foldl (fun s loc =>
        match loc.activities with
        | some obsList =>
          obsList.foldl (fun s obs =>
            obs.activities.foldl (fun s a => insert_unique s a.activity_type) s) s
        | none => s) s
      = (all_raw c).foldl insert_unique s := by
  induction c with
  | nil => intro s; rfl
  | cons loc rest ih =>
    intro s
    rw [List.foldl_cons, ih]
    rw [show all_raw (loc :: rest)
        = ((loc.activities.getD []).flatMap (fun obs => obs.activities)).map
            (fun a => a.activity_type) ++ all_raw rest by simp [all_raw]]
    rw [List.foldl_append]
    congr 1
    match hact : loc.activities with
    | none => rfl
    | some obsList =>
      show obsList.foldl _ s = _
      rw [obs_fold_eq]
      rfl

lemma list_activities_eq (c : List Location) :
    list_activities c = (all_raw c).foldl insert_unique [] :=
  list_activities_eq_aux c []

lemma list_activities_nodup (c : List Location) : (list_activities c).Nodup := by
  rw [list_activities_eq]
  exact foldl_insert_nodup _ [] (by simp)

lemma list_activities_mem (c : List Location) (s : String) :
    s ∈ list_activities c ↔ s ∈ all_raw c := by
  rw [list_activities_eq, foldl_insert_mem]
  simp

/-- C10: every raw label string outside the recognized set decodes to
UNKNOWN before summing; the UNKNOWN entry of `merged_activities` carries the
sum of every UNKNOWN-decoded confidence, and a record holding only
unrecognized labels collapses into the single `UNKNOWN` entry; while
`list_activities` reports the distinct raw strings unmapped. -/
theorem C10_unknown_collapse :
    (∀ s : String, s ∉ recognized_labels → activity_type_of_string s = ActivityType.UNKNOWN)
    ∧ (∀ (rec : Location) (a : Activity), a ∈ (merged_activities rec).activities →
        a.activity_type = "UNKNOWN" →
        a.confidence = total_confidence rec ActivityType.UNKNOWN)
    ∧ (∀ rec : Location, all_acts rec ≠ [] →
        (∀ a ∈ all_acts rec, a.activity_type ∉ recognized_labels) →
        (merged_activities rec).activities
          = [⟨"UNKNOWN", total_confidence rec ActivityType.UNKNOWN⟩])
    ∧ (∀ c : List Location, (list_activities c).Nodup
        ∧ (∀ s : String, s ∈ list_activities c ↔ s ∈ all_raw c)) := by
  refine ⟨unrecognized_unknown, ?_, ?_,
    fun c => ⟨list_activities_nodup c, list_activities_mem c⟩⟩
  · intro rec a hmem hty
    obtain ⟨T, hT, _, hconf⟩ := (mem_merged_iff rec a).mp hmem
    have hTU : T = ActivityType.UNKNOWN := string_of_inj
      (show string_of_activity_type T = string_of_activity_type ActivityType.UNKNOWN by
        rw [← hT]; exact hty)
    subst hTU
    exact hconf
  · intro rec hne hall
    exact merged_single_unknown rec hne (fun a ha => unrecognized_unknown _ (hall a ha))

/-- Witness for C10: the all-unrecognized record {foo:10, bar:20} collapses
into a single UNKNOWN entry. -/
theorem C10_witness :
    (merged_activities recFooBar).activities
      = [⟨"UNKNOWN", total_confidence recFooBar ActivityType.UNKNOWN⟩] :=
  C10_unknown_collapse.2.2.1 recFooBar (by decide) (by decide)

end LocationHistory
